import Mathlib

/-!
Verification of the jrpc2 JSON-RPC client of the shovel repository
(file jrpc2/client.go). The Go code is shallowly embedded: every stateful
operation becomes a pure Lean function from the pre-state to the post-state,
mutex acquisition and goroutines are modeled by sequential state passing,
byte slices become lists of naturals, and the network is modeled by passing
the already-decoded RPC responses as explicit arguments. Error returns
become Option or Except values.
-/

namespace Jrpc2

/-- Log payload stand-in. The layout of eth.Log lives outside client.go and
client.go copies log values opaquely (receipts copy the slice, the logs path
appends each one), so a log is abstracted to an opaque payload. -/
abbrev EthLog := Nat

/-- Block header as used by client.go: number, stored hash and parent hash.
Modelled from the spec: the eth.Header type itself is outside client.go; spec
section 3 gives it number, hash and parentHash, which are the fields
client.go reads and writes. -/
structure Header where
  number : Nat
  hash : List Nat
  parent : List Nat
deriving DecidableEq, Repr

/-- Transaction fields that client.go writes during enrichment, plus
traceActions, which the receipts path leaves untouched. Modelled from the
spec: eth.Tx is outside client.go; the fields are exactly the ones the
receipts, logs and traces loops of client.go assign. -/
structure Tx where
  precompHash : List Nat := []
  txType : Nat := 0
  txFrom : List Nat := []
  txTo : List Nat := []
  status : Nat := 0
  gasUsed : Nat := 0
  effectiveGasPrice : Nat := 0
  logs : List EthLog := []
  contractAddress : List Nat := []
  l1BaseFeeScalar : Option Nat := none
  l1BlobBaseFee : Option Nat := none
  l1BlobBaseFeeScalar : Option Nat := none
  l1Fee : Option Nat := none
  l1GasPrice : Option Nat := none
  l1GasUsed : Option Nat := none
  traceActions : List Nat := []
deriving DecidableEq, Repr

/-- Default transaction value: the zero eth.Tx that eth.Block.Tx hands out
for a not-yet-written slot. -/
def defaultTx : Tx := {}

/-- Block: a header plus transactions addressed by index. Transactions are
kept as an association list from transaction index to transaction, which
models eth.Block.Tx handing out the slot for a given index. -/
structure Block where
  header : Header
  txs : List (Nat × Tx)
deriving DecidableEq, Repr

/-- Placeholder block used as the default of list indexing in statements. -/
def dummyBlock : Block := ⟨⟨0, [], []⟩, []⟩

/-- Last element of a block list with a default, mirroring the Go expression
blocks[len(blocks)-1]. -/
def lastD : List Block → Block → Block
  | [], d => d
  | [b], _ => b
  | _ :: b :: t, d => lastD (b :: t) d

/-- Parent-hash continuity scan of validate in client.go: the loop
for i := 1; i < len(blocks); i++ checking
bytes.Equal(curr.Header.Parent, prev.Hash()). -/
def chainLinked : List Block → Bool
  | [] => true
  | [_] => true
  | a :: b :: t => if b.header.parent = a.header.hash then chainLinked (b :: t) else false

/-- Error kinds produced by validate in client.go. -/
inductive VErr
  | noBlocks
  | badFirst (want got : Nat)
  | badLast (want got : Nat)
  | corruptSegment
deriving DecidableEq, Repr

/-- Embedding of validate(caller, start, limit, blocks) from client.go.
The checks run in source order: non-empty, first number, last number, then
the parent-hash chain; none means a nil error. -/
def validate (start limit : Nat) (blocks : List Block) : Option VErr :=
  match blocks with
  | [] => some .noBlocks
  | b :: rest =>
    if b.header.number ≠ start then
      some (.badFirst start b.header.number)
    else if (lastD (b :: rest) b).header.number ≠ start + limit - 1 then
      some (.badLast (start + limit - 1) (lastD (b :: rest) b).header.number)
    else if chainLinked (b :: rest) = true then none
    else some .corruptSegment

/-- One decoded entry of the batch response of the blocks fetcher: the
JSON-RPC error code (0 meaning absent, as Error.Exists in client.go) and the
block decoded into the preallocated slot. -/
structure BlockResp where
  err : Int
  block : Block
deriving DecidableEq, Repr

/-- One decoded entry of the batch response of the headers fetcher. -/
structure HdrResp where
  err : Int
  header : Header
deriving DecidableEq, Repr

/-- First nonzero JSON-RPC error code in a batch, mirroring the loop over
resps checking Error.Exists() in source order. -/
def firstErrCode : List Int → Option Int
  | [] => none
  | c :: cs => if c ≠ 0 then some c else firstErrCode cs

/-- Fetcher-level failure: a JSON-RPC error in one of the batch entries or a
validate failure. Transport failures abort before any response is decoded
and are orthogonal to the fetcher logic, so they are not enumerated here. -/
inductive FetchErr
  | rpc (code : Int)
  | invalid (e : VErr)
deriving DecidableEq, Repr

/-- Blocks carried by a list of blocks-fetch responses (the preallocated
blocks slice the responses decode into, in positional order). -/
def respBlocks (resps : List BlockResp) : List Block :=
  resps.map (fun r => r.block)

/-- Blocks carried by a list of headers-fetch responses: only the header of
each preallocated block is populated. -/
def hdrBlocks (resps : List HdrResp) : List Block :=
  resps.map (fun r => Block.mk r.header [])

/-- Embedding of Client.blocks from client.go, starting from the decoded
batch responses: fail on the first entry with a JSON-RPC error, otherwise
run validate on the positionally decoded blocks. A caller-side hypothesis
resps.length = limit models the preallocated resps/blocks slices of length
limit that the batch decodes into. -/
def fetchBlocks (start limit : Nat) (resps : List BlockResp) : Except FetchErr (List Block) :=
  match firstErrCode (resps.map (fun r => r.err)) with
  | some c => .error (.rpc c)
  | none =>
    match validate start limit (respBlocks resps) with
    | some e => .error (.invalid e)
    | none => .ok (respBlocks resps)

/-- Embedding of Client.headers from client.go, same shape as fetchBlocks
but populating only headers. -/
def fetchHeaders (start limit : Nat) (resps : List HdrResp) : Except FetchErr (List Block) :=
  match firstErrCode (resps.map (fun r => r.err)) with
  | some c => .error (.rpc c)
  | none =>
    match validate start limit (hdrBlocks resps) with
    | some e => .error (.invalid e)
    | none => .ok (hdrBlocks resps)

/-- Properties claimed of a validated segment over [start, start+limit). -/
def segProps (start limit : Nat) (bs : List Block) : Prop :=
  bs ≠ [] ∧ bs.length = limit ∧
  (bs.getD 0 dummyBlock).header.number = start ∧
  (bs.getD (limit - 1) dummyBlock).header.number = start + limit - 1 ∧
  ∀ i, 1 ≤ i → i < limit →
    (bs.getD i dummyBlock).header.parent = (bs.getD (i - 1) dummyBlock).header.hash

/-- Key of the range cache: the (start, limit) pair, fields named a and b as
in client.go. -/
structure Key where
  a : Nat
  b : Nat
deriving DecidableEq, Repr

/-- Cache segment from client.go: read counter, done flag and the memoized
blocks. -/
structure Segment where
  nreads : Nat
  done : Bool
  d : List Block
deriving DecidableEq, Repr

/-- State of the cache struct in client.go. The Go map from key to segment
pointer is modeled as an association list without duplicate keys; a nil map
is the empty list. -/
structure CacheState where
  maxreads : Nat
  segments : List (Key × Segment)
deriving DecidableEq, Repr

/-- Fresh segment allocated on a cache miss. -/
def freshSegment : Segment := ⟨0, false, []⟩

/-- Embedding of cache.pruneMaxRead: delete every segment whose nreads has
reached maxreads. -/
def pruneMaxRead (m : Nat) : List (Key × Segment) → List (Key × Segment)
  | [] => []
  | p :: ps => if p.2.nreads < m then p :: pruneMaxRead m ps else pruneMaxRead m ps

/-- Lookup of c.segments[key]. -/
def findSeg : List (Key × Segment) → Key → Option Segment
  | [], _ => none
  | p :: ps, k => if p.1 = k then some p.2 else findSeg ps k

/-- Ordering used by cache.pruneSegments: keys[i].a > keys[j].a descending;
stated inclusively so the sort below is total. -/
def startGe (p q : Key × Segment) : Prop := q.1.a ≤ p.1.a

instance : DecidableRel startGe :=
  fun p q => inferInstanceAs (Decidable (q.1.a ≤ p.1.a))

instance : IsTotal (Key × Segment) startGe := ⟨fun p q => Nat.le_total q.1.a p.1.a⟩

instance : IsTrans (Key × Segment) startGe := ⟨fun _ _ _ h1 h2 => Nat.le_trans h2 h1⟩

/-- Descending order on start values, used to state the retention policy. -/
def natGe (x y : Nat) : Prop := y ≤ x

instance : DecidableRel natGe := fun x y => inferInstanceAs (Decidable (y ≤ x))

instance : IsTotal Nat natGe := ⟨fun x y => Nat.le_total y x⟩

instance : IsTrans Nat natGe := ⟨fun _ _ _ h1 h2 => Nat.le_trans h2 h1⟩

instance : IsAntisymm Nat natGe := ⟨fun _ _ h1 h2 => Nat.le_antisymm h2 h1⟩

/-- Embedding of cache.pruneSegments: with more than 5 segments, keep the 5
whose keys have the highest start values. Go iterates the map in an
unspecified order and sorts with an unstable sort by strictly descending
start, so ties among equal starts are broken arbitrarily there; the
embedding fixes a deterministic insertion sort by descending start. The
properties proved below depend only on the retained start values, which the
tie-break cannot change. -/
def pruneSegments (segs : List (Key × Segment)) : List (Key × Segment) :=
  if segs.length ≤ 5 then segs
  else (segs.insertionSort startGe).take 5

/-- Write-through of the segment pointer held by cache.get: mutating the
segment object is visible in the table only while the key is still
present. -/
def setIfPresent (segs : List (Key × Segment)) (k : Key) (s : Segment) :
    List (Key × Segment) :=
  segs.map (fun p => if p.1 = k then (k, s) else p)

/-- Map insertion performed by cache.get on a miss. -/
def insertFresh (segs : List (Key × Segment)) (k : Key) : List (Key × Segment) :=
  match findSeg segs k with
  | some _ => segs
  | none => segs ++ [(k, freshSegment)]

/-- Result of one cache.get call: the returned value, the post-state and
whether the fetcher was invoked. -/
structure GetOut where
  res : Except FetchErr (List Block)
  st : CacheState
  invoked : Bool
deriving Repr

/-- Embedding of cache.get from client.go. The fetcher is modeled by the
value fres it would produce if invoked on this call. Locking is sequential
here: under the cache lock prune expired segments, look up or insert the
segment, prune to 5 segments; then under the segment lock increment nreads,
serve a done segment from memory, and otherwise run the fetcher and, on
success, memoize. The segment object survives as a pointer even when
pruneSegments evicted its key, which setIfPresent models. -/
def cacheGet (nocache : Bool) (st : CacheState) (k : Key)
    (fres : Except FetchErr (List Block)) : GetOut :=
  if nocache then ⟨fres, st, true⟩
  else
    let t0 := pruneMaxRead st.maxreads st.segments
    let t1 := insertFresh t0 k
    let t2 := pruneSegments t1
    let s0 := (findSeg t0 k).getD freshSegment
    let s1 : Segment := ⟨s0.nreads + 1, s0.done, s0.d⟩
    if s1.done = true then ⟨.ok s1.d, ⟨st.maxreads, setIfPresent t2 k s1⟩, false⟩
    else
      match fres with
      | .error e => ⟨.error e, ⟨st.maxreads, setIfPresent t2 k s1⟩, true⟩
      | .ok bs => ⟨.ok bs, ⟨st.maxreads, setIfPresent t2 k ⟨s1.nreads, true, bs⟩⟩, true⟩

/-- State of the cache after n sequential calls of cache.get for the single
key k against a fresh cache with the given maxreads, where f gives the
fetcher outcome of each call (indexed from 1). -/
def seqState (k : Key) (f : Nat → Except FetchErr (List Block)) (m : Nat) :
    Nat → CacheState
  | 0 => ⟨m, []⟩
  | n + 1 => (cacheGet false (seqState k f m n) k (f (n + 1))).st

/-- Outcome of call number j (counted from 1) in that sequence. -/
def seqCall (k : Key) (f : Nat → Except FetchErr (List Block)) (m : Nat)
    (j : Nat) : GetOut :=
  cacheGet false (seqState k f m (j - 1)) k (f j)

/-- State of the NumHash tip cache of client.go. The error payload is
abstracted to a code; started models the sync.Once flag (true once the
background refresher has been launched, reset to a fresh Once when an error
is consumed); num and hash are the cached tip. -/
structure NumHash where
  err : Option Nat
  started : Bool
  maxreads : Nat
  nreads : Nat
  num : Nat
  hash : List Nat
deriving DecidableEq, Repr

/-- Embedding of NumHash.error: record the error and reset nreads. -/
def nhError (st : NumHash) (e : Nat) : NumHash :=
  { st with nreads := 0, err := some e }

/-- Embedding of NumHash.update: a number above the cached one replaces the
tip and resets nreads; n ≤ cached num is ignored. Hash.Write replaces the
stored bytes (modelled from the spec: eth.Bytes.Write is outside client.go;
per spec section 3 an update overwrites the 32-byte hash). -/
def nhUpdate (st : NumHash) (n : Nat) (h : List Nat) : NumHash :=
  if n ≤ st.num then st
  else { st with nreads := 0, num := n, hash := h }

/-- The fresh copy h := make([]byte, 32); copy(h, nh.Hash) performed on a
cache hit: the first 32 bytes of the stored hash, zero padded to 32. -/
def pad32 (h : List Nat) : List Nat :=
  h.take 32 ++ List.replicate (32 - h.length) 0

/-- Embedding of NumHash.get. A recorded error is consumed: the call is a
miss, the error is cleared and the once flag reset. n = 0 or a cached
number below n is a miss without state change. A surviving entry with
nreads ≥ maxreads expires (num 0, hash cleared) and reports a miss;
otherwise nreads is incremented and the number with a fresh 32-byte copy of
the hash is returned. -/
def nhGet (st : NumHash) (n : Nat) : Option (Nat × List Nat) × NumHash :=
  match st.err with
  | some _ => (none, { st with err := none, started := false })
  | none =>
    if n = 0 ∨ st.num < n then (none, st)
    else if st.maxreads ≤ st.nreads then
      (none, { st with nreads := 0, num := 0, hash := [] })
    else
      (some (st.num, pad32 st.hash), { st with nreads := st.nreads + 1 })

/-- Embedding of Client.Latest: ensure the refresher is launched (the
goroutine itself is concurrency, modeled only by the started flag), serve a
cache hit, otherwise issue eth_getBlockByNumber("latest") whose decoded
outcome is the rpc argument; on success update the cache and return the
fetched pair. The Bool records whether the RPC was issued. -/
def latestCall (st : NumHash) (n : Nat) (rpc : Except Nat (Nat × List Nat)) :
    Except Nat (Nat × List Nat) × NumHash × Bool :=
  match nhGet (if st.started then st else { st with started := true }) n with
  | (some v, st1) => (.ok v, st1, false)
  | (none, st1) =>
    match rpc with
    | .error e => (.error e, st1, true)
    | .ok p => (.ok p, nhUpdate st1 p.1 p.2, true)

/-- Fold of a sequence of NumHash.update calls. -/
def updSeq (st : NumHash) : List (Nat × List Nat) → NumHash
  | [] => st
  | p :: ps => updSeq (nhUpdate st p.1 p.2) ps

/-- Assoc-list lookup of a transaction slot by index. -/
def findTx : List (Nat × Tx) → Nat → Option Tx
  | [], _ => none
  | p :: ps, i => if p.1 = i then some p.2 else findTx ps i

/-- eth.Block.Tx(i): the transaction slot at index i, the zero transaction
when the slot was never written. Modelled from the spec: eth.Block.Tx is
outside client.go; spec section 3 addresses transactions by index within
the block. -/
def getTx (b : Block) (i : Nat) : Tx :=
  (findTx b.txs i).getD defaultTx

/-- Store of a transaction slot: replace the binding or create it. -/
def setAssocTx : List (Nat × Tx) → Nat → Tx → List (Nat × Tx)
  | [], i, t => [(i, t)]
  | p :: ps, i, t => if p.1 = i then (i, t) :: ps else p :: setAssocTx ps i t

/-- Write back the transaction slot at index i of a block. -/
def setTx (b : Block) (i : Nat) (t : Tx) : Block :=
  { b with txs := setAssocTx b.txs i t }

/-- One receipt of an eth_getBlockReceipts result, with the fields client.go
reads. Defaults only shorten concrete examples. -/
structure Receipt where
  blockHash : List Nat := []
  blockNum : Nat := 0
  txHash : List Nat := []
  txIdx : Nat := 0
  txType : Nat := 0
  txFrom : List Nat := []
  txTo : List Nat := []
  status : Nat := 0
  gasUsed : Nat := 0
  effectiveGasPrice : Nat := 0
  logs : List EthLog := []
  contractAddress : List Nat := []
  l1BaseFeeScalar : Option Nat := none
  l1BlobBaseFee : Option Nat := none
  l1BlobBaseFeeScalar : Option Nat := none
  l1Fee : Option Nat := none
  l1GasPrice : Option Nat := none
  l1GasUsed : Option Nat := none
deriving DecidableEq, Repr

/-- One decoded entry of the receipts batch response. -/
structure ReceiptResp where
  err : Int
  result : List Receipt
deriving DecidableEq, Repr

/-- Field writes of the receipts loop body for one receipt: every field the
receipt carries is overwritten on the transaction at its txIdx (logs are
replaced by a copy); trace actions are untouched. -/
def applyFields (t : Tx) (r : Receipt) : Tx :=
  { t with
    precompHash := r.txHash
    txType := r.txType
    txFrom := r.txFrom
    txTo := r.txTo
    status := r.status
    gasUsed := r.gasUsed
    effectiveGasPrice := r.effectiveGasPrice
    logs := r.logs
    contractAddress := r.contractAddress
    l1BaseFeeScalar := r.l1BaseFeeScalar
    l1BlobBaseFee := r.l1BlobBaseFee
    l1BlobBaseFeeScalar := r.l1BlobBaseFeeScalar
    l1Fee := r.l1Fee
    l1GasPrice := r.l1GasPrice
    l1GasUsed := r.l1GasUsed }

/-- One iteration of the inner receipts loop: write the receipt into the
slot of its own txIdx inside the single destination block. -/
def applyReceipt (b : Block) (r : Receipt) : Block :=
  setTx b r.txIdx (applyFields (getTx b r.txIdx) r)

/-- Processing of one non-empty receipts response on its destination block:
write the FIRST receipt's block hash into the header, then fold every
receipt of the response into that block. -/
def applyResp (b : Block) : List Receipt → Block
  | [] => b
  | r0 :: rest =>
    List.foldl applyReceipt
      { b with header := { b.header with hash := r0.blockHash } } (r0 :: rest)

/-- The blockmap of Client.Get: block number to block. Blocks are updated
in place through pointers in Go, so the key set never changes; setBM
replaces the binding when present and is a no-op otherwise. -/
abbrev Blockmap := List (Nat × Block)

/-- Blockmap lookup. -/
def lookupBM : Blockmap → Nat → Option Block
  | [], _ => none
  | p :: ps, n => if p.1 = n then some p.2 else lookupBM ps n

/-- Blockmap in-place update. -/
def setBM : Blockmap → Nat → Block → Blockmap
  | [], _, _ => []
  | p :: ps, n, b => if p.1 = n then (n, b) :: ps else p :: setBM ps n b

/-- Error kinds of the enrichment paths of client.go. rpc wraps the
JSON-RPC code of a receipts batch entry; rpcBoth is the
rpc=eth_getLogs/eth_getBlockByNumber message and rpcLogs the rpc=eth_getLogs
message, each carrying the code of the error value that client.go wraps. -/
inductive EnrichErr
  | rpc (code : Int)
  | rpcBoth (code : Int)
  | rpcLogs (code : Int)
  | outOfRange (num : Nat)
  | blockNotFound
  | missingHeader
deriving DecidableEq, Repr

/-- Body of the second receipts loop for one response: skip an empty result
(diagnostic log only), bounds-check the FIRST receipt's blockNumber with
INCLUSIVE upper bound start+limit, look the destination block up under that
same number, and write all receipts of the response into it. -/
def receiptsStep (start limit : Nat) (bm : Blockmap) (rs : List Receipt) :
    Except EnrichErr Blockmap :=
  match rs with
  | [] => .ok bm
  | r0 :: _ =>
    if r0.blockNum < start ∨ start + limit < r0.blockNum then
      .error (.outOfRange r0.blockNum)
    else
      match lookupBM bm r0.blockNum with
      | none => .error .blockNotFound
      | some b => .ok (setBM bm r0.blockNum (applyResp b rs))

/-- The second receipts loop over all responses. -/
def receiptsLoop (start limit : Nat) (bm : Blockmap) :
    List ReceiptResp → Except EnrichErr Blockmap
  | [] => .ok bm
  | resp :: rest =>
    match receiptsStep start limit bm resp.result with
    | .error e => .error e
    | .ok bm1 => receiptsLoop start limit bm1 rest

/-- Embedding of Client.receipts from the decoded batch responses: the
error loop failing on the first entry with a JSON-RPC error, then the
enrichment loop. -/
def receiptsEnrich (start limit : Nat) (bm : Blockmap)
    (resps : List ReceiptResp) : Except EnrichErr Blockmap :=
  match firstErrCode (resps.map (fun r => r.err)) with
  | some c => .error (.rpc c)
  | none => receiptsLoop start limit bm resps

/-- One log of an eth_getLogs result with the metadata client.go reads. -/
structure LogRes where
  blockNum : Nat := 0
  txIdx : Nat := 0
  blockHash : List Nat := []
  txHash : List Nat := []
  log : EthLog := 0
  removed : Bool := false
deriving DecidableEq, Repr

/-- Decoded header half of the logs batch: JSON-RPC error code and the
possibly null header. -/
structure HeaderResp where
  err : Int
  header : Option Header
deriving DecidableEq, Repr

/-- Decoded logs half of the logs batch. -/
structure LogResp where
  err : Int
  result : List LogRes
deriving DecidableEq, Repr

/-- Append a log under its (blockNum, txIdx) group, creating the group at
the end on first sight, mirroring logsByTx population order. -/
def addGroup : List (Key × List LogRes) → Key → LogRes → List (Key × List LogRes)
  | [], k, l => [(k, [l])]
  | g :: gs, k, l => if g.1 = k then (k, g.2 ++ [l]) :: gs else g :: addGroup gs k l

/-- Grouping loop of Client.logs: per log compute the (blockNum, txIdx)
key, bounds-check blockNumber with EXCLUSIVE upper bound start+limit, then
group. -/
def groupLogs (start limit : Nat) :
    List LogRes → List (Key × List LogRes) → Except EnrichErr (List (Key × List LogRes))
  | [], gs => .ok gs
  | l :: ls, gs =>
    if l.blockNum < start ∨ start + limit ≤ l.blockNum then
      .error (.outOfRange l.blockNum)
    else groupLogs start limit ls (addGroup gs ⟨l.blockNum, l.txIdx⟩ l)

/-- Write loop of Client.logs for one group: the block hash and the tx hash
come from the group's first log, and every log of the group is appended to
the transaction's log list in upstream order. -/
def writeGroup (bm : Blockmap) (k : Key) (logs : List LogRes) :
    Except EnrichErr Blockmap :=
  match lookupBM bm k.a with
  | none => .error .blockNotFound
  | some b =>
    match logs with
    | [] => .ok bm
    | l0 :: _ =>
      let b1 := { b with header := { b.header with hash := l0.blockHash } }
      let t := getTx b1 k.b
      let t1 := { t with
        precompHash := l0.txHash
        logs := t.logs ++ logs.map (fun l => l.log) }
      .ok (setBM bm k.a (setTx b1 k.b t1))

/-- Write loop over all groups. Go iterates logsByTx in unspecified map
order; the embedding iterates in insertion order. -/
def writeGroups (bm : Blockmap) : List (Key × List LogRes) → Except EnrichErr Blockmap
  | [] => .ok bm
  | g :: gs =>
    match writeGroup bm g.1 g.2 with
    | .error e => .error e
    | .ok bm1 => writeGroups bm1 gs

/-- Embedding of Client.logs from the two decoded responses of the batched
pair eth_getBlockByNumber(toBlock, false) and eth_getLogs. The first switch
arm reproduces client.go verbatim: when the header response carries the
JSON-RPC error, the error wrapped into the returned message is lresp.Error,
the value from the logs response. -/
def logsEnrich (start limit : Nat) (bm : Blockmap) (hresp : HeaderResp)
    (lresp : LogResp) : Except EnrichErr Blockmap :=
  if hresp.err ≠ 0 then .error (.rpcBoth lresp.err)
  else if lresp.err ≠ 0 then .error (.rpcLogs lresp.err)
  else if hresp.header = none then .error .missingHeader
  else
    match groupLogs start limit lresp.result [] with
    | .error e => .error e
    | .ok gs => writeGroups bm gs

/-- Last element of a receipt list, if any: the receipt whose write wins
when several receipts of one response share a txIdx. -/
def lastOpt : List Receipt → Option Receipt
  | [] => none
  | [r] => some r
  | _ :: r :: t => lastOpt (r :: t)

/-- Prefix test of raw characters, the inner loop of substring search. -/
def leadsWith : List Char → List Char → Bool
  | [], _ => true
  | _ :: _, [] => false
  | a :: as, b :: bs => a == b && leadsWith as bs

/-- strings.Contains(hay, sub) over raw characters. -/
def strContains : List Char → List Char → Bool
  | [], sub => sub.isEmpty
  | c :: rest, sub => leadsWith sub (c :: rest) || strContains rest sub

/-- The substring "debug". -/
def debugChars : List Char := ['d', 'e', 'b', 'u', 'g']

/-- The substring "nocache". -/
def nocacheChars : List Char := ['n', 'o', 'c', 'a', 'c', 'h', 'e']

/-- The flag loop of New in client.go: each iteration OVERWRITES debug and
nocache with the containment test of the current URL string, so the final
flags come from the last provided string alone. -/
def newFlagsLoop (dbg noc : Bool) : List (List Char) → Bool × Bool
  | [] => (dbg, noc)
  | s :: rest =>
    newFlagsLoop (strContains s debugChars) (strContains s nocacheChars) rest

/-- Flags computed by New over the provided URL strings. -/
def newFlags (provided : List (List Char)) : Bool × Bool :=
  newFlagsLoop false false provided

/-- Client fields relevant to Get: the debug and nocache flags and the two
range caches (New sets maxreads to 20). -/
structure ClientState where
  d : Bool
  nocache : Bool
  bcache : CacheState
  hcache : CacheState
deriving Repr

/-- Embedding of New from client.go, restricted to flag and cache setup. -/
def clientNew (provided : List (List Char)) : ClientState :=
  ⟨(newFlags provided).1, (newFlags provided).2, ⟨20, []⟩, ⟨20, []⟩⟩

/-- The glf.Filter booleans consumed by Client.Get. -/
structure GFilter where
  useBlocks : Bool := false
  useHeaders : Bool := false
  useReceipts : Bool := false
  useLogs : Bool := false
  useTraces : Bool := false
deriving DecidableEq, Repr

/-- The default arm of the primary switch of Client.Get: limit blocks with
only the number populated. -/
def syntheticBlocks (start limit : Nat) : List Block :=
  (List.range limit).map (fun i => ⟨⟨start + i, [], []⟩, []⟩)

/-- Primary-fetch switch of Client.Get: blocks through bcache, headers
through hcache, else synthetic blocks; c.nocache is handed to cache.get.
The fetchers are represented by the value each would produce. The
enrichment switch is modeled separately by receiptsEnrich and logsEnrich. -/
def getPrimary (cs : ClientState) (f : GFilter) (start limit : Nat)
    (bres hres : Except FetchErr (List Block)) :
    Except FetchErr (List Block) × ClientState × Bool :=
  if f.useBlocks then
    ((cacheGet cs.nocache cs.bcache ⟨start, limit⟩ bres).res,
      { cs with bcache := (cacheGet cs.nocache cs.bcache ⟨start, limit⟩ bres).st },
      (cacheGet cs.nocache cs.bcache ⟨start, limit⟩ bres).invoked)
  else if f.useHeaders then
    ((cacheGet cs.nocache cs.hcache ⟨start, limit⟩ hres).res,
      { cs with hcache := (cacheGet cs.nocache cs.hcache ⟨start, limit⟩ hres).st },
      (cacheGet cs.nocache cs.hcache ⟨start, limit⟩ hres).invoked)
  else (.ok (syntheticBlocks start limit), cs, false)

/-- Modulus of the uint64 request counter of Client.NextURL. -/
def u64Mod : Nat := 2 ^ 64

/-- Embedding of Client.NextURL for numUrls endpoints: atomically increment
the counter with uint64 wraparound, then select index counter mod numUrls.
Returns (selected index, new counter). -/
def nextURLStep (numUrls c : Nat) : Nat × Nat :=
  ((c + 1) % u64Mod % numUrls, (c + 1) % u64Mod)

/-- Indices selected by n consecutive sequential NextURL calls starting
from counter value c: each call selects nextURLStep's index and continues
with its new counter. -/
def idxSeq (numUrls c : Nat) : Nat → List Nat
  | 0 => []
  | n + 1 => (c + 1) % u64Mod % numUrls :: idxSeq numUrls ((c + 1) % u64Mod) n

lemma getD_default_irrel (l : List Block) (i : Nat) (h : i < l.length) (d1 d2 : Block) :
    l.getD i d1 = l.getD i d2 := by
  rw [List.getD_eq_getElem l d1 h, List.getD_eq_getElem l d2 h]

lemma lastD_eq_getD : ∀ (l : List Block) (d : Block), l ≠ [] → lastD l d = l.getD (l.length - 1) d
  | [], _, h => absurd rfl h
  | [b], d, _ => rfl
  | a :: b :: t, d, _ => by
    have ih := lastD_eq_getD (b :: t) d (by simp)
    simp only [lastD, ih, List.length_cons]
    have h2 : t.length + 1 + 1 - 1 = t.length + 1 := rfl
    have h3 : t.length + 1 - 1 = t.length := rfl
    rw [h2, h3, List.getD_cons_succ]

lemma chainLinked_iff (bs : List Block) :
    chainLinked bs = true ↔
      ∀ i, i + 1 < bs.length →
        (bs.getD (i + 1) dummyBlock).header.parent = (bs.getD i dummyBlock).header.hash := by
  induction bs with
  | nil => simp [chainLinked]
  | cons a t ih =>
    cases t with
    | nil => simp [chainLinked]
    | cons b t2 =>
      constructor
      · intro h i hi
        rw [chainLinked] at h
        split at h
        · rename_i hp
          match i with
          | 0 => simpa using hp
          | j + 1 =>
            have hj : j + 1 < (b :: t2).length := by
              simp at hi
              simp
              omega
            simpa using (ih.mp h) j hj
        · exact absurd h (by simp)
      · intro h
        rw [chainLinked]
        have h0 := h 0 (by simp)
        simp at h0
        rw [if_pos h0]
        refine ih.mpr ?_
        intro j hj
        have := h (j + 1) (by simp at hj; simp; omega)
        simpa using this

lemma validate_ok_props (start limit : Nat) (bs : List Block)
    (hlen : bs.length = limit) (h : validate start limit bs = none) :
    segProps start limit bs := by
  match bs with
  | [] => simp [validate] at h
  | b :: rest =>
    rw [validate] at h
    split at h
    · exact absurd h (by simp)
    · split at h
      · exact absurd h (by simp)
      · split at h
        · rename_i hfirst hlast hchain
          refine ⟨by simp, hlen, ?_, ?_, ?_⟩
          · simpa using Decidable.not_not.mp hfirst
          · have hl := Decidable.not_not.mp hlast
            rw [lastD_eq_getD (b :: rest) b (by simp)] at hl
            rw [hlen] at hl
            have h1lim : 1 ≤ limit := by
              rw [← hlen]
              simp
            have hidx : limit - 1 < (b :: rest).length := by
              rw [hlen]
              omega
            rw [getD_default_irrel _ _ hidx dummyBlock b]
            exact hl
          · intro i h1 h2
            have hc := (chainLinked_iff (b :: rest)).mp hchain (i - 1)
            have hi : i - 1 + 1 = i := by omega
            rw [hi] at hc
            exact hc (by omega)
        · exact absurd h (by simp)

lemma validate_corrupt (start limit : Nat) (bs : List Block)
    (hlen : bs.length = limit)
    (h1 : (bs.getD 0 dummyBlock).header.number = start)
    (h2 : (bs.getD (limit - 1) dummyBlock).header.number = start + limit - 1)
    (h3 : ∃ i, 1 ≤ i ∧ i < limit ∧
      (bs.getD i dummyBlock).header.parent ≠ (bs.getD (i - 1) dummyBlock).header.hash) :
    validate start limit bs = some .corruptSegment := by
  obtain ⟨i, hi1, hi2, hibad⟩ := h3
  match bs with
  | [] =>
    exfalso
    have : limit = 0 := by simpa using hlen.symm
    omega
  | b :: rest =>
    rw [validate]
    have hfirst : b.header.number = start := by simpa using h1
    rw [if_neg (by simpa using hfirst)]
    have h1lim : 1 ≤ limit := by omega
    have hidx : limit - 1 < (b :: rest).length := by
      rw [hlen]
      omega
    have hlast : (lastD (b :: rest) b).header.number = start + limit - 1 := by
      rw [lastD_eq_getD (b :: rest) b (by simp), hlen,
        getD_default_irrel _ _ hidx b dummyBlock]
      exact h2
    rw [if_neg (by simpa using hlast)]
    have hnot : ¬ chainLinked (b :: rest) = true := by
      intro hc
      have := (chainLinked_iff (b :: rest)).mp hc (i - 1)
      rw [show i - 1 + 1 = i by omega] at this
      exact hibad (this (by omega))
    rw [if_neg hnot]

lemma firstErrCode_none_iff (cs : List Int) :
    firstErrCode cs = none ↔ ∀ c ∈ cs, c = 0 := by
  induction cs with
  | nil => simp [firstErrCode]
  | cons c cs ih =>
    rw [firstErrCode]
    by_cases hc : c = 0
    · simp [hc, ih]
    · simp [hc]

/-- C1: every successful blocks or headers fetch over [start, start+limit)
returns a non-empty slice with blocks[0].number = start,
blocks[limit-1].number = start+limit-1 and every parentHash equal to the
previous hash; and when the endpoint checks pass but a parent-hash link
fails, the fetcher returns the corrupt-segment error instead of an ok
result. -/
theorem c1_fetch_validated (start limit : Nat)
    (resps : List BlockResp) (hresps : List HdrResp)
    (hlen : resps.length = limit) (hhlen : hresps.length = limit) :
    (∀ bs, fetchBlocks start limit resps = .ok bs → segProps start limit bs) ∧
    (∀ bs, fetchHeaders start limit hresps = .ok bs → segProps start limit bs) ∧
    (((respBlocks resps).getD 0 dummyBlock).header.number = start →
      ((respBlocks resps).getD (limit - 1) dummyBlock).header.number = start + limit - 1 →
      (∃ i, 1 ≤ i ∧ i < limit ∧
        ((respBlocks resps).getD i dummyBlock).header.parent ≠
          ((respBlocks resps).getD (i - 1) dummyBlock).header.hash) →
      (∀ r ∈ resps, r.err = 0) →
      fetchBlocks start limit resps = .error (.invalid .corruptSegment)) ∧
    (((hdrBlocks hresps).getD 0 dummyBlock).header.number = start →
      ((hdrBlocks hresps).getD (limit - 1) dummyBlock).header.number = start + limit - 1 →
      (∃ i, 1 ≤ i ∧ i < limit ∧
        ((hdrBlocks hresps).getD i dummyBlock).header.parent ≠
          ((hdrBlocks hresps).getD (i - 1) dummyBlock).header.hash) →
      (∀ r ∈ hresps, r.err = 0) →
      fetchHeaders start limit hresps = .error (.invalid .corruptSegment)) := by
  have hrb : (respBlocks resps).length = limit := by
    simpa [respBlocks] using hlen
  have hhb : (hdrBlocks hresps).length = limit := by
    simpa [hdrBlocks] using hhlen
  refine ⟨?_, ?_, ?_, ?_⟩
  · intro bs hok
    rw [fetchBlocks] at hok
    split at hok
    · exact absurd hok (by simp)
    · split at hok
      · exact absurd hok (by simp)
      · rename_i hv
        have hbs : bs = respBlocks resps := by
          simpa using hok.symm
        subst hbs
        exact validate_ok_props start limit _ hrb hv
  · intro bs hok
    rw [fetchHeaders] at hok
    split at hok
    · exact absurd hok (by simp)
    · split at hok
      · exact absurd hok (by simp)
      · rename_i hv
        have hbs : bs = hdrBlocks hresps := by
          simpa using hok.symm
        subst hbs
        exact validate_ok_props start limit _ hhb hv
  · intro h1 h2 h3 herr
    have hnone : firstErrCode (resps.map (fun r => r.err)) = none := by
      rw [firstErrCode_none_iff]
      intro c hc
      obtain ⟨r, hr, hcr⟩ := List.mem_map.mp hc
      exact hcr ▸ herr r hr
    rw [fetchBlocks, hnone]
    rw [validate_corrupt start limit _ hrb h1 h2 h3]
  · intro h1 h2 h3 herr
    have hnone : firstErrCode (hresps.map (fun r => r.err)) = none := by
      rw [firstErrCode_none_iff]
      intro c hc
      obtain ⟨r, hr, hcr⟩ := List.mem_map.mp hc
      exact hcr ▸ herr r hr
    rw [fetchHeaders, hnone]
    rw [validate_corrupt start limit _ hhb h1 h2 h3]

lemma cacheGet_fresh (m : Nat) (k : Key) (fres : Except FetchErr (List Block)) :
    cacheGet false ⟨m, []⟩ k fres =
      match fres with
      | .error e => ⟨.error e, ⟨m, [(k, ⟨1, false, []⟩)]⟩, true⟩
      | .ok bs => ⟨.ok bs, ⟨m, [(k, ⟨1, true, bs⟩)]⟩, true⟩ := by
  cases fres <;>
    simp [cacheGet, pruneMaxRead, insertFresh, findSeg, pruneSegments,
      setIfPresent, freshSegment]

lemma cacheGet_hit (m j : Nat) (k : Key) (B : List Block)
    (fres : Except FetchErr (List Block)) (hj : j < m) :
    cacheGet false ⟨m, [(k, ⟨j, true, B⟩)]⟩ k fres =
      ⟨.ok B, ⟨m, [(k, ⟨j + 1, true, B⟩)]⟩, false⟩ := by
  simp [cacheGet, pruneMaxRead, insertFresh, findSeg, pruneSegments,
    setIfPresent, hj]

lemma cacheGet_expired (m j : Nat) (k : Key) (B : List Block)
    (fres : Except FetchErr (List Block)) (hj : m ≤ j) :
    (cacheGet false ⟨m, [(k, ⟨j, true, B⟩)]⟩ k fres).invoked = true ∧
    (cacheGet false ⟨m, [(k, ⟨j, true, B⟩)]⟩ k fres).res = fres := by
  have hnot : ¬ j < m := by omega
  cases fres <;>
    simp [cacheGet, pruneMaxRead, insertFresh, findSeg, pruneSegments,
      setIfPresent, hnot, freshSegment]

lemma c2_inv (m : Nat) (k : Key) (f : Nat → Except FetchErr (List Block))
    (B : List Block) (hf : f 1 = .ok B) :
    ∀ j, 1 ≤ j → j ≤ m → seqState k f m j = ⟨m, [(k, ⟨j, true, B⟩)]⟩ := by
  intro j
  induction j with
  | zero => omega
  | succ n ih =>
    intro _ h2
    match n, ih with
    | 0, _ =>
      simp [seqState, hf, cacheGet_fresh]
    | n2 + 1, ih =>
      have hst := ih (by omega) (by omega)
      show (cacheGet false (seqState k f m (n2 + 1)) k (f (n2 + 1 + 1))).st = _
      rw [hst, cacheGet_hit m (n2 + 1) k B (f (n2 + 1 + 1)) (by omega)]

/-- C2: with nocache false, in a sequence of sequential cache.get calls for
one key whose first call fetches successfully, calls 2 through maxreads
return the blocks memoized by call 1 without invoking the fetcher, and call
maxreads+1 finds the segment pruned for nreads ≥ maxreads and invokes the
fetcher again. -/
theorem c2_bounded_reuse (m : Nat) (k : Key)
    (f : Nat → Except FetchErr (List Block)) (B : List Block)
    (hm : 1 ≤ m) (hf : f 1 = .ok B) :
    (seqCall k f m 1).res = .ok B ∧ (seqCall k f m 1).invoked = true ∧
    (∀ j, 2 ≤ j → j ≤ m →
      (seqCall k f m j).res = .ok B ∧ (seqCall k f m j).invoked = false) ∧
    findSeg (pruneMaxRead m (seqState k f m m).segments) k = none ∧
    (seqCall k f m (m + 1)).invoked = true := by
  refine ⟨?_, ?_, ?_, ?_, ?_⟩
  · simp [seqCall, seqState, hf, cacheGet_fresh]
  · simp [seqCall, seqState, hf, cacheGet_fresh]
  · intro j hj2 hjm
    have hst := c2_inv m k f B hf (j - 1) (by omega) (by omega)
    have hcall : seqCall k f m j =
        cacheGet false ⟨m, [(k, ⟨j - 1, true, B⟩)]⟩ k (f j) := by
      rw [seqCall, hst]
    rw [hcall, cacheGet_hit m (j - 1) k B (f j) (by omega)]
    exact ⟨rfl, rfl⟩
  · have hst := c2_inv m k f B hf m hm le_rfl
    rw [hst]
    have hnot : ¬ m < m := by omega
    simp [pruneMaxRead, hnot, findSeg]
  · have hst := c2_inv m k f B hf m hm le_rfl
    have hcall : seqCall k f m (m + 1) =
        cacheGet false ⟨m, [(k, ⟨m, true, B⟩)]⟩ k (f (m + 1)) := by
      rw [seqCall, Nat.add_sub_cancel, hst]
    rw [hcall]
    exact (cacheGet_expired m m k B (f (m + 1)) le_rfl).1

/-- C2 witness: maxreads 2, call 2 is served from memory and call 3
re-fetches. -/
theorem c2_witness :
    (seqCall ⟨7, 3⟩ (fun _ => .ok [dummyBlock]) 2 2).res = .ok [dummyBlock] ∧
    (seqCall ⟨7, 3⟩ (fun _ => .ok [dummyBlock]) 2 2).invoked = false ∧
    (seqCall ⟨7, 3⟩ (fun _ => .ok [dummyBlock]) 2 3).invoked = true := by
  have h := c2_bounded_reuse 2 ⟨7, 3⟩ (fun _ => .ok [dummyBlock]) [dummyBlock]
    (by decide) rfl
  exact ⟨(h.2.2.1 2 (by decide) (by decide)).1,
    (h.2.2.1 2 (by decide) (by decide)).2, h.2.2.2.2⟩

lemma setIfPresent_starts (l : List (Key × Segment)) (k : Key) (s : Segment) :
    (setIfPresent l k s).map (fun p => p.1.a) = l.map (fun p => p.1.a) := by
  rw [setIfPresent, List.map_map]
  refine List.map_congr_left ?_
  intro p hp
  by_cases h : p.1 = k
  · simp [h]
  · simp [h]

lemma setIfPresent_length (l : List (Key × Segment)) (k : Key) (s : Segment) :
    (setIfPresent l k s).length = l.length := by
  simp [setIfPresent]

lemma cacheGet_segments_shape (st : CacheState) (k : Key)
    (fres : Except FetchErr (List Block)) :
    ∃ s, (cacheGet false st k fres).st.segments =
      setIfPresent (pruneSegments (insertFresh (pruneMaxRead st.maxreads st.segments) k)) k s := by
  rw [cacheGet]
  simp only [Bool.false_eq_true, if_false]
  split
  · exact ⟨_, rfl⟩
  · split
    · exact ⟨_, rfl⟩
    · exact ⟨_, rfl⟩

lemma pruneSegments_length (segs : List (Key × Segment)) :
    (pruneSegments segs).length ≤ 5 := by
  rw [pruneSegments]
  split
  · assumption
  · simp [List.length_take]

lemma pruneSegments_starts (segs : List (Key × Segment)) (h : 5 < segs.length) :
    (pruneSegments segs).map (fun p => p.1.a) =
      ((segs.map (fun p => p.1.a)).insertionSort natGe).take 5 := by
  rw [pruneSegments, if_neg (by omega)]
  rw [List.map_take]
  congr 1
  have hmono : ∀ a b : Key × Segment, startGe a b → natGe a.1.a b.1.a :=
    fun _ _ h => h
  have hpair : List.Pairwise startGe (List.insertionSort startGe segs) :=
    List.sorted_insertionSort startGe segs
  have hsorted : List.Pairwise natGe
      ((List.insertionSort startGe segs).map (fun p => p.1.a)) :=
    List.Pairwise.map (fun p => p.1.a) hmono hpair
  have hperm : List.Perm ((List.insertionSort startGe segs).map (fun p => p.1.a))
      ((segs.map (fun p => p.1.a)).insertionSort natGe) :=
    ((List.perm_insertionSort startGe segs).map (fun p => p.1.a)).trans
      (List.perm_insertionSort natGe _).symm
  exact List.eq_of_perm_of_sorted hperm hsorted (List.sorted_insertionSort natGe _)

/-- C5: after any cache.get with nocache false the segment table holds at
most 5 segments, and when the insertion step leaves more than 5 entries the
retained start values are exactly the 5 highest ones (the start multiset
sorted descending, truncated to 5). -/
theorem c5_segment_cap (st : CacheState) (k : Key)
    (fres : Except FetchErr (List Block)) :
    (cacheGet false st k fres).st.segments.length ≤ 5 ∧
    (5 < (insertFresh (pruneMaxRead st.maxreads st.segments) k).length →
      (cacheGet false st k fres).st.segments.map (fun p => p.1.a) =
        (((insertFresh (pruneMaxRead st.maxreads st.segments) k).map
          (fun p => p.1.a)).insertionSort natGe).take 5) := by
  obtain ⟨s, hs⟩ := cacheGet_segments_shape st k fres
  constructor
  · rw [hs, setIfPresent_length]
    exact pruneSegments_length _
  · intro hlen
    rw [hs, setIfPresent_starts, pruneSegments_starts _ hlen]

/-- C5 witness: a table of six segments is cut back to the five highest
start values. -/
theorem c5_witness :
    ((cacheGet false
      ⟨9, [(⟨1, 1⟩, ⟨0, true, []⟩), (⟨2, 1⟩, ⟨0, true, []⟩),
        (⟨3, 1⟩, ⟨0, true, []⟩), (⟨4, 1⟩, ⟨0, true, []⟩),
        (⟨5, 1⟩, ⟨0, true, []⟩), (⟨6, 1⟩, ⟨0, true, []⟩)]⟩
      ⟨1, 1⟩ (.ok [])).st.segments.length ≤ 5) ∧
    ((cacheGet false
      ⟨9, [(⟨1, 1⟩, ⟨0, true, []⟩), (⟨2, 1⟩, ⟨0, true, []⟩),
        (⟨3, 1⟩, ⟨0, true, []⟩), (⟨4, 1⟩, ⟨0, true, []⟩),
        (⟨5, 1⟩, ⟨0, true, []⟩), (⟨6, 1⟩, ⟨0, true, []⟩)]⟩
      ⟨1, 1⟩ (.ok [])).st.segments.map (fun p => p.1.a) =
      (((insertFresh (pruneMaxRead 9
        [(⟨1, 1⟩, ⟨0, true, []⟩), (⟨2, 1⟩, ⟨0, true, []⟩),
          (⟨3, 1⟩, ⟨0, true, []⟩), (⟨4, 1⟩, ⟨0, true, []⟩),
          (⟨5, 1⟩, ⟨0, true, []⟩), (⟨6, 1⟩, ⟨0, true, []⟩)]) ⟨1, 1⟩).map
        (fun p => p.1.a)).insertionSort natGe).take 5) := by
  have h := c5_segment_cap
    ⟨9, [(⟨1, 1⟩, ⟨0, true, []⟩), (⟨2, 1⟩, ⟨0, true, []⟩),
      (⟨3, 1⟩, ⟨0, true, []⟩), (⟨4, 1⟩, ⟨0, true, []⟩),
      (⟨5, 1⟩, ⟨0, true, []⟩), (⟨6, 1⟩, ⟨0, true, []⟩)]⟩
    ⟨1, 1⟩ (.ok [])
  exact ⟨h.1, h.2 (by decide)⟩

/-- C1 witness: a correctly linked two-block segment starting at 10. -/
theorem c1_witness :
    segProps 10 2 (respBlocks [⟨0, ⟨⟨10, [1], []⟩, []⟩⟩, ⟨0, ⟨⟨11, [2], [1]⟩, []⟩⟩]) :=
  (c1_fetch_validated 10 2
    [⟨0, ⟨⟨10, [1], []⟩, []⟩⟩, ⟨0, ⟨⟨11, [2], [1]⟩, []⟩⟩]
    [⟨0, ⟨10, [1], []⟩⟩, ⟨0, ⟨11, [2], [1]⟩⟩] rfl rfl).1 _ rfl

lemma pad32_length (h : List Nat) : (pad32 h).length = 32 := by
  simp [pad32]
  omega

lemma nhGet_err (st : NumHash) (n e2 : Nat) (hst : st.err = some e2) :
    nhGet st n = (none, { st with err := none, started := false }) := by
  rw [nhGet, hst]

lemma nhGet_miss (st : NumHash) (n : Nat) (hst : st.err = none)
    (h1 : n = 0 ∨ st.num < n) : nhGet st n = (none, st) := by
  rw [nhGet, hst, if_pos h1]

lemma nhGet_expire (st : NumHash) (n : Nat) (hst : st.err = none)
    (h1 : ¬ (n = 0 ∨ st.num < n)) (h2 : st.maxreads ≤ st.nreads) :
    nhGet st n = (none, { st with nreads := 0, num := 0, hash := [] }) := by
  rw [nhGet, hst, if_neg h1, if_pos h2]

lemma nhGet_hit (st : NumHash) (n : Nat) (hst : st.err = none)
    (h1 : ¬ (n = 0 ∨ st.num < n)) (h2 : ¬ st.maxreads ≤ st.nreads) :
    nhGet st n =
      (some (st.num, pad32 st.hash), { st with nreads := st.nreads + 1 }) := by
  rw [nhGet, hst, if_neg h1, if_neg h2]

lemma nhGet_zero (st : NumHash) : (nhGet st 0).1 = none := by
  cases hst : st.err with
  | some e2 => rw [nhGet_err st 0 e2 hst]
  | none => rw [nhGet_miss st 0 hst (Or.inl rfl)]

/-- C3: NumHash.get with no pending error hits if and only if n is positive,
the cached number is at least n and nreads is below maxreads; a hit
increments nreads and returns the cached number with a fresh 32-byte copy
of the hash; a pending error makes the call a miss while clearing the error
and resetting the once flag; and Latest with n = 0 always issues the RPC
and returns its result. -/
theorem c3_numhash_get (st : NumHash) (n e : Nat)
    (rpc : Except Nat (Nat × List Nat)) :
    (st.err = none →
      ((nhGet st n).1.isSome ↔ 0 < n ∧ n ≤ st.num ∧ st.nreads < st.maxreads)) ∧
    (∀ v h, (nhGet st n).1 = some (v, h) →
      v = st.num ∧ h = pad32 st.hash ∧ h.length = 32 ∧
      (nhGet st n).2.nreads = st.nreads + 1) ∧
    (st.err = some e →
      (nhGet st n).1 = none ∧ (nhGet st n).2.err = none ∧
      (nhGet st n).2.started = false) ∧
    (latestCall st 0 rpc).2.2 = true ∧
    (∀ v h, rpc = .ok (v, h) → (latestCall st 0 rpc).1 = .ok (v, h)) := by
  refine ⟨?_, ?_, ?_, ?_, ?_⟩
  · intro herr
    by_cases h1 : n = 0 ∨ st.num < n
    · rw [nhGet_miss st n herr h1]
      exact iff_of_false (by simp) (by omega)
    · by_cases h2 : st.maxreads ≤ st.nreads
      · rw [nhGet_expire st n herr h1 h2]
        exact iff_of_false (by simp) (by omega)
      · rw [nhGet_hit st n herr h1 h2]
        exact iff_of_true (by simp) (by omega)
  · intro v h hsome
    cases hst : st.err with
    | some e2 =>
      rw [nhGet_err st n e2 hst] at hsome
      simp at hsome
    | none =>
      by_cases h1 : n = 0 ∨ st.num < n
      · rw [nhGet_miss st n hst h1] at hsome
        simp at hsome
      · by_cases h2 : st.maxreads ≤ st.nreads
        · rw [nhGet_expire st n hst h1 h2] at hsome
          simp at hsome
        · rw [nhGet_hit st n hst h1 h2] at hsome ⊢
          simp at hsome
          exact ⟨hsome.1.symm, hsome.2.symm,
            by rw [← hsome.2]; exact pad32_length _, rfl⟩
  · intro herr
    rw [nhGet_err st n e herr]
    exact ⟨rfl, rfl, rfl⟩
  · rw [latestCall]
    rcases hget : nhGet (if st.started then st else { st with started := true }) 0
      with ⟨o, st1⟩
    have hnone := nhGet_zero (if st.started then st else { st with started := true })
    rw [hget] at hnone
    simp only at hnone
    subst hnone
    rcases rpc with e2 | p <;> rfl
  · intro v h hrpc
    subst hrpc
    rw [latestCall]
    rcases hget : nhGet (if st.started then st else { st with started := true }) 0
      with ⟨o, st1⟩
    have hnone := nhGet_zero (if st.started then st else { st with started := true })
    rw [hget] at hnone
    simp only at hnone
    subst hnone
    rfl

/-- C3 witness: a warm cache at number 100 answers n = 50 from memory, and
Latest with n = 0 still issues the RPC and returns the fetched pair. -/
theorem c3_witness :
    ((nhGet ⟨none, false, 20, 0, 100, List.replicate 32 7⟩ 50).1.isSome ↔
      0 < 50 ∧ 50 ≤ 100 ∧ 0 < 20) ∧
    (latestCall ⟨none, false, 20, 0, 100, List.replicate 32 7⟩ 0
      (.ok (101, [1]))).1 = .ok (101, [1]) := by
  have h := c3_numhash_get ⟨none, false, 20, 0, 100, List.replicate 32 7⟩ 50 0
    (.ok (101, [1]))
  exact ⟨h.1 rfl, h.2.2.2.2 101 [1] rfl⟩

lemma nhUpdate_num_le (st : NumHash) (n : Nat) (h : List Nat) :
    st.num ≤ (nhUpdate st n h).num := by
  rw [nhUpdate]
  split
  · exact le_rfl
  · simp
    omega

lemma updSeq_mono : ∀ (l : List (Nat × List Nat)) (st : NumHash),
    st.num ≤ (updSeq st l).num
  | [], _ => le_rfl
  | p :: ps, st =>
    Nat.le_trans (nhUpdate_num_le st p.1 p.2) (updSeq_mono ps (nhUpdate st p.1 p.2))

/-- C6: update with n ≤ cached num changes nothing; with n > cached num it
sets num to n, overwrites the hash with h and resets nreads; the cached num
is non-decreasing across any update sequence; get either leaves num
unchanged or zeroes it (hash cleared) exactly on the maxreads expiry path;
and error leaves num and hash unchanged. -/
theorem c6_update_monotonic (st : NumHash) (n e : Nat) (h : List Nat)
    (l : List (Nat × List Nat)) :
    (n ≤ st.num → nhUpdate st n h = st) ∧
    (st.num < n → (nhUpdate st n h).num = n ∧ (nhUpdate st n h).hash = h ∧
      (nhUpdate st n h).nreads = 0) ∧
    st.num ≤ (updSeq st l).num ∧
    ((nhGet st n).2.num = st.num ∨
      ((nhGet st n).2.num = 0 ∧ (nhGet st n).2.hash = [] ∧ st.err = none ∧
        n ≠ 0 ∧ n ≤ st.num ∧ st.maxreads ≤ st.nreads)) ∧
    (nhError st e).num = st.num ∧ (nhError st e).hash = st.hash := by
  refine ⟨?_, ?_, updSeq_mono l st, ?_, rfl, rfl⟩
  · intro hle
    rw [nhUpdate, if_pos hle]
  · intro hlt
    rw [nhUpdate, if_neg (by omega)]
    exact ⟨rfl, rfl, rfl⟩
  · cases hst : st.err with
    | some e2 =>
      rw [nhGet_err st n e2 hst]
      exact Or.inl rfl
    | none =>
      by_cases h1 : n = 0 ∨ st.num < n
      · rw [nhGet_miss st n hst h1]
        exact Or.inl rfl
      · by_cases h2 : st.maxreads ≤ st.nreads
        · rw [nhGet_expire st n hst h1 h2]
          exact Or.inr ⟨rfl, rfl, rfl, by omega, by omega, h2⟩
        · rw [nhGet_hit st n hst h1 h2]
          exact Or.inl rfl

/-- C6 witness: at cached number 5, update(3) is ignored and update(9)
replaces the tip. -/
theorem c6_witness :
    nhUpdate ⟨none, true, 20, 4, 5, [9]⟩ 3 [1] = ⟨none, true, 20, 4, 5, [9]⟩ ∧
    (nhUpdate ⟨none, true, 20, 4, 5, [9]⟩ 9 [1]).num = 9 := by
  have h1 := c6_update_monotonic ⟨none, true, 20, 4, 5, [9]⟩ 3 0 [1] []
  have h2 := c6_update_monotonic ⟨none, true, 20, 4, 5, [9]⟩ 9 0 [1] []
  exact ⟨h1.1 (by decide), (h2.2.1 (by decide)).1⟩

lemma receiptsStep_outOfRange_iff (start limit : Nat) (bm : Blockmap)
    (rs : List Receipt) (n : Nat) :
    receiptsStep start limit bm rs = .error (.outOfRange n) ↔
      ∃ r0 rest, rs = r0 :: rest ∧ r0.blockNum = n ∧
        (n < start ∨ start + limit < n) := by
  cases rs with
  | nil =>
    rw [receiptsStep]
    simp
  | cons r0 rest =>
    rw [receiptsStep]
    by_cases hb : r0.blockNum < start ∨ start + limit < r0.blockNum
    · rw [if_pos hb]
      constructor
      · intro h
        simp at h
        exact ⟨r0, rest, rfl, h, h ▸ hb⟩
      · intro ⟨r1, rest1, heq, hn, _⟩
        cases heq
        simp [hn]
    · rw [if_neg hb]
      constructor
      · intro h
        cases hlk : lookupBM bm r0.blockNum with
        | none => rw [hlk] at h; simp at h
        | some b => rw [hlk] at h; simp at h
      · intro ⟨r1, rest1, heq, hn, hbad⟩
        cases heq
        subst hn
        exact absurd hbad hb

lemma receiptsLoop_outOfRange (start limit : Nat) :
    ∀ (resps : List ReceiptResp) (bm : Blockmap) (n : Nat),
      receiptsLoop start limit bm resps = .error (.outOfRange n) →
      n < start ∨ start + limit < n := by
  intro resps
  induction resps with
  | nil =>
    intro bm n h
    rw [receiptsLoop] at h
    simp at h
  | cons resp rest ih =>
    intro bm n h
    rw [receiptsLoop] at h
    cases hstep : receiptsStep start limit bm resp.result with
    | error e =>
      rw [hstep] at h
      simp at h
      subst h
      obtain ⟨_, _, _, _, hbad⟩ :=
        (receiptsStep_outOfRange_iff start limit bm resp.result n).mp hstep
      exact hbad
    | ok bm1 =>
      rw [hstep] at h
      exact ih bm1 n h

lemma receiptsLoop_inRange (start limit : Nat) :
    ∀ (resps : List ReceiptResp) (bm : Blockmap),
      (∀ resp ∈ resps, ∀ r0 rest, resp.result = r0 :: rest →
        start ≤ r0.blockNum ∧ r0.blockNum ≤ start + limit) →
      ∀ n, receiptsLoop start limit bm resps ≠ .error (.outOfRange n) := by
  intro resps
  induction resps with
  | nil =>
    intro bm _ n h
    rw [receiptsLoop] at h
    simp at h
  | cons resp rest ih =>
    intro bm hall n h
    rw [receiptsLoop] at h
    cases hstep : receiptsStep start limit bm resp.result with
    | error e =>
      rw [hstep] at h
      simp at h
      subst h
      obtain ⟨r0, rs, heq, hn, hbad⟩ :=
        (receiptsStep_outOfRange_iff start limit bm resp.result n).mp hstep
      have := hall resp (by simp) r0 rs heq
      omega
    | ok bm1 =>
      rw [hstep] at h
      exact ih bm1 (fun q hq => hall q (by simp [hq])) n h

lemma groupLogs_outOfRange (start limit : Nat) :
    ∀ (ls : List LogRes) (gs : List (Key × List LogRes)) (n : Nat),
      groupLogs start limit ls gs = .error (.outOfRange n) →
      n < start ∨ start + limit ≤ n := by
  intro ls
  induction ls with
  | nil =>
    intro gs n h
    rw [groupLogs] at h
    simp at h
  | cons l ls2 ih =>
    intro gs n h
    rw [groupLogs] at h
    by_cases hb : l.blockNum < start ∨ start + limit ≤ l.blockNum
    · rw [if_pos hb] at h
      simp at h
      subst h
      exact hb
    · rw [if_neg hb] at h
      exact ih _ n h

lemma groupLogs_inRange (start limit : Nat) :
    ∀ (ls : List LogRes) (gs : List (Key × List LogRes)),
      (∀ l ∈ ls, start ≤ l.blockNum ∧ l.blockNum < start + limit) →
      ∃ gs2, groupLogs start limit ls gs = .ok gs2 := by
  intro ls
  induction ls with
  | nil =>
    intro gs _
    exact ⟨gs, rfl⟩
  | cons l ls2 ih =>
    intro gs hall
    rw [groupLogs]
    have hl := hall l (by simp)
    rw [if_neg (by omega)]
    exact ih _ (fun q hq => hall q (by simp [hq]))

lemma writeGroups_no_outOfRange :
    ∀ (gs : List (Key × List LogRes)) (bm : Blockmap) (n : Nat),
      writeGroups bm gs ≠ .error (.outOfRange n) := by
  intro gs
  induction gs with
  | nil =>
    intro bm n h
    rw [writeGroups] at h
    simp at h
  | cons g gs2 ih =>
    intro bm n h
    obtain ⟨k, logs⟩ := g
    rw [writeGroups] at h
    cases hw : writeGroup bm k logs with
    | error e =>
      rw [hw] at h
      simp at h
      subst h
      rw [writeGroup] at hw
      cases hlk : lookupBM bm k.a with
      | none =>
        rw [hlk] at hw
        simp at hw
      | some b =>
        rw [hlk] at hw
        cases logs with
        | nil => simp at hw
        | cons l0 ls => simp at hw
    | ok bm1 =>
      rw [hw] at h
      exact ih bm1 n h

/-- C7: receipts reject a response exactly when its reported blockNumber
falls outside the INCLUSIVE range [start, start+limit], while logs reject a
log exactly when its blockNumber falls outside the EXCLUSIVE range
[start, start+limit); in-range results are never rejected by these checks,
and the boundary value start+limit passes the receipts check but fails the
logs check. -/
theorem c7_bounds_asymmetry (start limit : Nat) (bm : Blockmap)
    (resps : List ReceiptResp) (rs : List Receipt)
    (hresp : HeaderResp) (lresp : LogResp) :
    (∀ n, receiptsStep start limit bm rs = .error (.outOfRange n) ↔
      ∃ r0 rest, rs = r0 :: rest ∧ r0.blockNum = n ∧
        (n < start ∨ start + limit < n)) ∧
    (∀ n, receiptsEnrich start limit bm resps = .error (.outOfRange n) →
      n < start ∨ start + limit < n) ∧
    ((∀ resp ∈ resps, ∀ r0 rest, resp.result = r0 :: rest →
        start ≤ r0.blockNum ∧ r0.blockNum ≤ start + limit) →
      ∀ n, receiptsEnrich start limit bm resps ≠ .error (.outOfRange n)) ∧
    (∀ n, logsEnrich start limit bm hresp lresp = .error (.outOfRange n) →
      n < start ∨ start + limit ≤ n) ∧
    ((∀ l ∈ lresp.result, start ≤ l.blockNum ∧ l.blockNum < start + limit) →
      ∀ n, logsEnrich start limit bm hresp lresp ≠ .error (.outOfRange n)) ∧
    (∀ r0 rest n, r0.blockNum = start + limit →
      receiptsStep start limit bm (r0 :: rest) ≠ .error (.outOfRange n)) ∧
    (∀ l ls gs, l.blockNum = start + limit →
      groupLogs start limit (l :: ls) gs = .error (.outOfRange (start + limit))) := by
  refine ⟨receiptsStep_outOfRange_iff start limit bm rs, ?_, ?_, ?_, ?_, ?_, ?_⟩
  · intro n h
    rw [receiptsEnrich] at h
    cases hfe : firstErrCode (resps.map (fun r => r.err)) with
    | some c => rw [hfe] at h; simp at h
    | none =>
      rw [hfe] at h
      exact receiptsLoop_outOfRange start limit resps bm n h
  · intro hall n h
    rw [receiptsEnrich] at h
    cases hfe : firstErrCode (resps.map (fun r => r.err)) with
    | some c => rw [hfe] at h; simp at h
    | none =>
      rw [hfe] at h
      exact receiptsLoop_inRange start limit resps bm hall n h
  · intro n h
    rw [logsEnrich] at h
    by_cases h1 : hresp.err ≠ 0
    · rw [if_pos h1] at h; simp at h
    · rw [if_neg h1] at h
      by_cases h2 : lresp.err ≠ 0
      · rw [if_pos h2] at h; simp at h
      · rw [if_neg h2] at h
        by_cases h3 : hresp.header = none
        · rw [if_pos h3] at h; simp at h
        · rw [if_neg h3] at h
          cases hg : groupLogs start limit lresp.result [] with
          | error e =>
            rw [hg] at h
            simp at h
            subst h
            exact groupLogs_outOfRange start limit lresp.result [] n hg
          | ok gs =>
            rw [hg] at h
            exact absurd h (writeGroups_no_outOfRange gs bm n)
  · intro hall n h
    rw [logsEnrich] at h
    by_cases h1 : hresp.err ≠ 0
    · rw [if_pos h1] at h; simp at h
    · rw [if_neg h1] at h
      by_cases h2 : lresp.err ≠ 0
      · rw [if_pos h2] at h; simp at h
      · rw [if_neg h2] at h
        by_cases h3 : hresp.header = none
        · rw [if_pos h3] at h; simp at h
        · rw [if_neg h3] at h
          obtain ⟨gs2, hg⟩ := groupLogs_inRange start limit lresp.result [] hall
          rw [hg] at h
          exact absurd h (writeGroups_no_outOfRange gs2 bm n)
  · intro r0 rest n hr h
    obtain ⟨r1, rest1, heq, hn, hbad⟩ :=
      (receiptsStep_outOfRange_iff start limit bm (r0 :: rest) n).mp h
    cases heq
    omega
  · intro l ls gs hl
    rw [groupLogs, if_pos (by omega)]
    rw [hl]

/-- C7 witness: with start 4 and limit 3, a receipt response reporting
block 7 passes the inclusive receipts check while a log reporting block 7
fails the exclusive logs check. -/
theorem c7_witness :
    (receiptsStep 4 3 [] [{ blockNum := 7 }] ≠
      .error (.outOfRange 7)) ∧
    groupLogs 4 3 [{ blockNum := 7 }] [] = .error (.outOfRange 7) := by
  have h := c7_bounds_asymmetry 4 3 [] [] [{ blockNum := 7 }] ⟨0, none⟩ ⟨0, []⟩
  exact ⟨h.2.2.2.2.2.1 { blockNum := 7 } [] 7 rfl,
    h.2.2.2.2.2.2 { blockNum := 7 } [] [] rfl⟩

lemma findTx_setAssocTx : ∀ (l : List (Nat × Tx)) (j i : Nat) (t : Tx),
    findTx (setAssocTx l j t) i = if j = i then some t else findTx l i := by
  intro l
  induction l with
  | nil =>
    intro j i t
    by_cases h : j = i
    · simp [setAssocTx, findTx, h]
    · simp [setAssocTx, findTx, h]
  | cons p ps ih =>
    intro j i t
    rw [setAssocTx]
    by_cases hp : p.1 = j
    · rw [if_pos hp]
      by_cases h : j = i
      · simp [findTx, h]
      · rw [if_neg h, findTx, if_neg (by omega), findTx, if_neg (by omega)]
    · rw [if_neg hp, findTx]
      by_cases hpi : p.1 = i
      · rw [if_pos hpi, if_neg (by omega), findTx, if_pos hpi]
      · rw [if_neg hpi, ih j i t, findTx, if_neg hpi]

lemma getTx_setTx (b : Block) (j i : Nat) (t : Tx) :
    getTx (setTx b j t) i = if j = i then t else getTx b i := by
  rw [getTx, setTx]
  show (findTx (setAssocTx b.txs j t) i).getD defaultTx = _
  rw [findTx_setAssocTx]
  by_cases h : j = i
  · simp [h]
  · simp [h, getTx]

lemma getTx_applyReceipt (b : Block) (r : Receipt) (i : Nat) :
    getTx (applyReceipt b r) i =
      if r.txIdx = i then applyFields (getTx b i) r else getTx b i := by
  rw [applyReceipt, getTx_setTx]
  by_cases h : r.txIdx = i
  · rw [if_pos h, if_pos h, h]
  · rw [if_neg h, if_neg h]

lemma lastOpt_cons_isSome : ∀ (t : List Receipt) (r : Receipt),
    (lastOpt (r :: t)).isSome = true := by
  intro t
  induction t with
  | nil => intro r; rfl
  | cons r2 t2 ih => intro r; exact ih r2

lemma lastOpt_cons (r : Receipt) (l : List Receipt) :
    lastOpt (r :: l) = some ((lastOpt l).getD r) := by
  cases l with
  | nil => rfl
  | cons r2 t =>
    show lastOpt (r2 :: t) = _
    have hs := lastOpt_cons_isSome t r2
    cases hl : lastOpt (r2 :: t) with
    | none => rw [hl] at hs; simp at hs
    | some x => simp [hl]

/-- Receipts of a response that target transaction index i, in order. -/
def receiptsFor (rs : List Receipt) (i : Nat) : List Receipt :=
  rs.filter (fun r => decide (r.txIdx = i))

lemma applyFields_applyFields (t : Tx) (r1 r2 : Receipt) :
    applyFields (applyFields t r1) r2 = applyFields t r2 := rfl

lemma getTx_foldl (i : Nat) : ∀ (rs : List Receipt) (b : Block),
    getTx (List.foldl applyReceipt b rs) i =
      match lastOpt (receiptsFor rs i) with
      | some r => applyFields (getTx b i) r
      | none => getTx b i := by
  intro rs
  induction rs with
  | nil => intro b; rfl
  | cons r rs2 ih =>
    intro b
    rw [List.foldl_cons, ih (applyReceipt b r)]
    by_cases hr : r.txIdx = i
    · have hfil : receiptsFor (r :: rs2) i = r :: receiptsFor rs2 i := by
        simp [receiptsFor, List.filter_cons, hr]
      rw [hfil, lastOpt_cons]
      have hget : getTx (applyReceipt b r) i = applyFields (getTx b i) r := by
        rw [getTx_applyReceipt, if_pos hr]
      cases hlast : lastOpt (receiptsFor rs2 i) with
      | none => simp [hget]
      | some r2 => simp [hget, applyFields_applyFields]
    · have hfil : receiptsFor (r :: rs2) i = receiptsFor rs2 i := by
        simp [receiptsFor, List.filter_cons, hr]
      have hget : getTx (applyReceipt b r) i = getTx b i := by
        rw [getTx_applyReceipt, if_neg hr]
      rw [hfil, hget]

lemma foldl_applyReceipt_header : ∀ (rs : List Receipt) (b : Block),
    (List.foldl applyReceipt b rs).header = b.header := by
  intro rs
  induction rs with
  | nil => intro b; rfl
  | cons r rs2 ih =>
    intro b
    rw [List.foldl_cons, ih (applyReceipt b r)]
    rfl

lemma getTx_applyResp (b : Block) (r0 : Receipt) (rest : List Receipt) (i : Nat) :
    getTx (applyResp b (r0 :: rest)) i =
      match lastOpt (receiptsFor (r0 :: rest) i) with
      | some r => applyFields (getTx b i) r
      | none => getTx b i := by
  rw [applyResp, getTx_foldl]
  rfl

lemma lookupBM_setBM_self : ∀ (bm : Blockmap) (n : Nat) (b c : Block),
    lookupBM bm n = some c → lookupBM (setBM bm n b) n = some b := by
  intro bm
  induction bm with
  | nil => intro n b c h; simp [lookupBM] at h
  | cons p ps ih =>
    intro n b c h
    rw [setBM]
    by_cases hp : p.1 = n
    · rw [if_pos hp, lookupBM, if_pos rfl]
    · rw [if_neg hp, lookupBM, if_neg hp]
      rw [lookupBM, if_neg hp] at h
      exact ih n b c h

lemma lookupBM_setBM_other : ∀ (bm : Blockmap) (n : Nat) (b : Block) (m : Nat),
    m ≠ n → lookupBM (setBM bm n b) m = lookupBM bm m := by
  intro bm
  induction bm with
  | nil => intro n b m _; rfl
  | cons p ps ih =>
    intro n b m hm
    rw [setBM]
    by_cases hp : p.1 = n
    · rw [if_pos hp, lookupBM, if_neg (by omega), lookupBM, if_neg (by omega)]
    · rw [if_neg hp, lookupBM, lookupBM]
      by_cases hpm : p.1 = m
      · rw [if_pos hpm, if_pos hpm]
      · rw [if_neg hpm, if_neg hpm, ih n b m hm]

lemma applyReceipt_blockNum_irrel (b : Block) (r : Receipt) (x : Nat) :
    applyReceipt b { r with blockNum := x } = applyReceipt b r := rfl

lemma foldl_applyReceipt_blockNum_irrel :
    ∀ (rs : List Receipt) (b : Block),
      List.foldl applyReceipt b (rs.map (fun r => { r with blockNum := 0 })) =
        List.foldl applyReceipt b rs := by
  intro rs
  induction rs with
  | nil => intro b; rfl
  | cons r rs2 ih =>
    intro b
    rw [List.map_cons, List.foldl_cons, List.foldl_cons,
      applyReceipt_blockNum_irrel]
    exact ih (applyReceipt b r)

/-- C9: a non-empty receipts response is bounds-checked and looked up in
the blockmap by the blockNumber of its FIRST receipt only; every receipt of
the response is written into that single block at its own txIdx (the last
receipt of a shared txIdx winning), other blockmap entries are untouched,
the block hash comes from the first receipt, and the blockNumber fields of
the later receipts are irrelevant to the outcome. -/
theorem c9_receipts_first_block (start limit : Nat) (bm : Blockmap)
    (r0 : Receipt) (rest : List Receipt) (b : Block)
    (hin : ¬ (r0.blockNum < start ∨ start + limit < r0.blockNum))
    (hbm : lookupBM bm r0.blockNum = some b) :
    receiptsStep start limit bm (r0 :: rest) =
      .ok (setBM bm r0.blockNum (applyResp b (r0 :: rest))) ∧
    (∀ m, m ≠ r0.blockNum →
      lookupBM (setBM bm r0.blockNum (applyResp b (r0 :: rest))) m =
        lookupBM bm m) ∧
    lookupBM (setBM bm r0.blockNum (applyResp b (r0 :: rest))) r0.blockNum =
      some (applyResp b (r0 :: rest)) ∧
    receiptsStep start limit bm
        (r0 :: rest.map (fun r => { r with blockNum := 0 })) =
      receiptsStep start limit bm (r0 :: rest) ∧
    (applyResp b (r0 :: rest)).header.hash = r0.blockHash ∧
    (∀ i, getTx (applyResp b (r0 :: rest)) i =
      match lastOpt (receiptsFor (r0 :: rest) i) with
      | some r => applyFields (getTx b i) r
      | none => getTx b i) := by
  have hstep : receiptsStep start limit bm (r0 :: rest) =
      .ok (setBM bm r0.blockNum (applyResp b (r0 :: rest))) := by
    rw [receiptsStep, if_neg hin, hbm]
  refine ⟨hstep, ?_, ?_, ?_, ?_, ?_⟩
  · intro m hm
    exact lookupBM_setBM_other bm r0.blockNum (applyResp b (r0 :: rest)) m hm
  · exact lookupBM_setBM_self bm r0.blockNum (applyResp b (r0 :: rest)) b hbm
  · have happ : applyResp b (r0 :: rest.map (fun r => { r with blockNum := 0 })) =
        applyResp b (r0 :: rest) := by
      show List.foldl applyReceipt _ (r0 :: rest.map (fun r => { r with blockNum := 0 })) =
        List.foldl applyReceipt _ (r0 :: rest)
      rw [List.foldl_cons, List.foldl_cons, foldl_applyReceipt_blockNum_irrel]
    have hstep2 : receiptsStep start limit bm
        (r0 :: rest.map (fun r => { r with blockNum := 0 })) =
        .ok (setBM bm r0.blockNum
          (applyResp b (r0 :: rest.map (fun r => { r with blockNum := 0 })))) := by
      rw [receiptsStep, if_neg hin, hbm]
    rw [hstep2, hstep, happ]
  · rw [applyResp, foldl_applyReceipt_header]
  · intro i
    exact getTx_applyResp b r0 rest i

/-- C9 witness: a response headed by a receipt of block 5 also carrying a
receipt whose own blockNumber is 999 writes both receipts into block 5 at
their transaction indices 0 and 1. -/
theorem c9_witness :
    receiptsStep 5 2 [(5, dummyBlock)]
        [{ blockNum := 5, txIdx := 0, txHash := [3] },
          { blockNum := 999, txIdx := 1, txHash := [4] }] =
      .ok [(5, applyResp dummyBlock
        [{ blockNum := 5, txIdx := 0, txHash := [3] },
          { blockNum := 999, txIdx := 1, txHash := [4] }])] ∧
    (applyResp dummyBlock
        [{ blockNum := 5, txIdx := 0, txHash := [3] },
          { blockNum := 999, txIdx := 1, txHash := [4] }]).header.hash = [] := by
  have h := c9_receipts_first_block 5 2 [(5, dummyBlock)]
    { blockNum := 5, txIdx := 0, txHash := [3] }
    [{ blockNum := 999, txIdx := 1, txHash := [4] }] dummyBlock
    (by decide) (by rw [lookupBM, if_pos rfl])
  refine ⟨?_, h.2.2.2.2.1⟩
  have hs := h.1
  rw [hs]
  rfl

/-- C10: when the header half of the logs batch reports a JSON-RPC error,
the error returned wraps the logs response's error value, not the header
response's own error. -/
theorem c10_logs_error_wrap (start limit : Nat) (bm : Blockmap)
    (hresp : HeaderResp) (lresp : LogResp) (hh : hresp.err ≠ 0) :
    logsEnrich start limit bm hresp lresp = .error (.rpcBoth lresp.err) := by
  rw [logsEnrich, if_pos hh]

/-- C10 witness: header error code 5, logs error code 0: the wrapped code
is 0, the logs response's value. -/
theorem c10_witness :
    logsEnrich 0 1 [] ⟨5, none⟩ ⟨0, []⟩ = .error (.rpcBoth 0) :=
  c10_logs_error_wrap 0 1 [] ⟨5, none⟩ ⟨0, []⟩ (by decide)

/-- C4 counterexample: with endpoints ["nocache", "u"] the first string
contains "nocache", yet New leaves the client's nocache flag false (the
loop overwrote it with the test of the last string), and a repeated
identical Get is then served from the RangeCache without invoking the
fetcher — so it is not the case that any one endpoint string containing
"nocache" makes every Get bypass the cache. -/
theorem c4_counterexample :
    strContains nocacheChars nocacheChars = true ∧
    (clientNew [nocacheChars, ['u']]).nocache = false ∧
    (getPrimary
        (getPrimary (clientNew [nocacheChars, ['u']]) { useBlocks := true } 1 2
          (.ok [dummyBlock]) (.ok [dummyBlock])).2.1
        { useBlocks := true } 1 2 (.ok [dummyBlock]) (.ok [dummyBlock])).2.2 =
      false := by
  refine ⟨by decide, by decide, ?_⟩
  decide

lemma newFlagsLoop_last (s : List Char) :
    ∀ (l : List (List Char)) (dbg noc : Bool),
      newFlagsLoop dbg noc (l ++ [s]) =
        (strContains s debugChars, strContains s nocacheChars) := by
  intro l
  induction l with
  | nil => intro dbg noc; rfl
  | cons t rest ih =>
    intro dbg noc
    rw [List.cons_append, newFlagsLoop]
    exact ih _ _

lemma cacheGet_done_hit (st : CacheState) (k : Key)
    (fres : Except FetchErr (List Block)) (seg : Segment)
    (hfind : findSeg (pruneMaxRead st.maxreads st.segments) k = some seg)
    (hdone : seg.done = true) :
    (cacheGet false st k fres).res = .ok seg.d ∧
    (cacheGet false st k fres).invoked = false := by
  constructor <;> simp [cacheGet, hfind, hdone]

/-- C4 amended: the debug and nocache flags are those of the LAST provided
endpoint string alone; with nocache set every blocks-Get calls the fetcher
directly and leaves the caches untouched, and with nocache unset a Get
whose segment is memoized is served from the RangeCache without invoking
the fetcher. -/
theorem c4_last_endpoint_flags (l : List (List Char)) (s : List Char)
    (cs : ClientState) (f : GFilter) (start limit : Nat)
    (bres hres : Except FetchErr (List Block)) (seg : Segment) :
    newFlags (l ++ [s]) =
      (strContains s debugChars, strContains s nocacheChars) ∧
    (clientNew (l ++ [s])).nocache = strContains s nocacheChars ∧
    (clientNew (l ++ [s])).d = strContains s debugChars ∧
    (cs.nocache = true → f.useBlocks = true →
      getPrimary cs f start limit bres hres = (bres, cs, true)) ∧
    (cs.nocache = false → f.useBlocks = true →
      findSeg (pruneMaxRead cs.bcache.maxreads cs.bcache.segments)
        ⟨start, limit⟩ = some seg →
      seg.done = true →
      (getPrimary cs f start limit bres hres).2.2 = false ∧
      (getPrimary cs f start limit bres hres).1 = .ok seg.d) := by
  have hflags : newFlags (l ++ [s]) =
      (strContains s debugChars, strContains s nocacheChars) :=
    newFlagsLoop_last s l false false
  refine ⟨hflags, ?_, ?_, ?_, ?_⟩
  · show (newFlags (l ++ [s])).2 = _
    rw [hflags]
  · show (newFlags (l ++ [s])).1 = _
    rw [hflags]
  · intro hnc hb
    rw [getPrimary, if_pos hb]
    have hc : cacheGet cs.nocache cs.bcache ⟨start, limit⟩ bres =
        ⟨bres, cs.bcache, true⟩ := by
      rw [hnc, cacheGet]
      simp
    rw [hc]
  · intro hnc hb hfind hdone
    rw [getPrimary, if_pos hb, hnc]
    have h := cacheGet_done_hit cs.bcache ⟨start, limit⟩ bres seg hfind hdone
    exact ⟨h.2, h.1⟩

/-- C4 witness for the amended claim: last string "nocache" sets the flag,
thus a blocks-Get hands the fetcher result straight through. -/
theorem c4_witness :
    (clientNew ([['u']] ++ [nocacheChars])).nocache = true ∧
    getPrimary ⟨false, true, ⟨20, []⟩, ⟨20, []⟩⟩ { useBlocks := true } 1 2
        (.ok [dummyBlock]) (.ok [dummyBlock]) =
      (.ok [dummyBlock], ⟨false, true, ⟨20, []⟩, ⟨20, []⟩⟩, true) := by
  have h1 := c4_last_endpoint_flags [['u']] nocacheChars
    ⟨false, true, ⟨20, []⟩, ⟨20, []⟩⟩ { useBlocks := true } 1 2
    (.ok [dummyBlock]) (.ok [dummyBlock]) ⟨0, true, []⟩
  refine ⟨?_, h1.2.2.2.1 rfl rfl⟩
  rw [h1.2.1]
  decide

lemma idxSeq_step (numUrls c n : Nat) :
    idxSeq numUrls c (n + 1) =
      (nextURLStep numUrls c).1 :: idxSeq numUrls (nextURLStep numUrls c).2 n := rfl

lemma idxSeq_length (numUrls : Nat) : ∀ (n c : Nat),
    (idxSeq numUrls c n).length = n := by
  intro n
  induction n with
  | zero => intro c; rfl
  | succ n2 ih =>
    intro c
    rw [idxSeq, List.length_cons, ih]

lemma idxSeq_nowrap (numUrls : Nat) : ∀ (n c : Nat), c + n < u64Mod →
    idxSeq numUrls c n =
      (List.range n).map (fun i => (c + 1 + i) % numUrls) := by
  intro n
  induction n with
  | zero => intro c _; rfl
  | succ n2 ih =>
    intro c hc
    have hc1 : (c + 1) % u64Mod = c + 1 := Nat.mod_eq_of_lt (by omega)
    rw [idxSeq, hc1, ih (c + 1) (by omega), List.range_succ_eq_map n2,
      List.map_cons, List.map_map]
    have htail : (List.range n2).map (fun i => (c + 1 + 1 + i) % numUrls) =
        (List.range n2).map ((fun i => (c + 1 + i) % numUrls) ∘ (· + 1)) := by
      refine List.map_congr_left ?_
      intro i _
      show (c + 1 + 1 + i) % numUrls = (c + 1 + (i + 1)) % numUrls
      congr 1
      omega
    rw [htail]

lemma cycle_mem (numUrls c r : Nat) (hn : 1 ≤ numUrls) (hr : r < numUrls) :
    r ∈ (List.range numUrls).map (fun i => (c + 1 + i) % numUrls) := by
  have hN : 0 < numUrls := hn
  have h2 : (c + 1) % numUrls < numUrls := Nat.mod_lt _ hN
  refine List.mem_map.mpr
    ⟨(r + numUrls - (c + 1) % numUrls) % numUrls, List.mem_range.mpr (Nat.mod_lt _ hN), ?_⟩
  have hkey : (c + 1) % numUrls + (r + numUrls - (c + 1) % numUrls) = r + numUrls := by
    omega
  calc (c + 1 + (r + numUrls - (c + 1) % numUrls) % numUrls) % numUrls
      = ((c + 1) % numUrls +
          ((r + numUrls - (c + 1) % numUrls) % numUrls) % numUrls) % numUrls :=
        Nat.add_mod _ _ _
    _ = ((c + 1) % numUrls + (r + numUrls - (c + 1) % numUrls) % numUrls) % numUrls := by
        rw [Nat.mod_mod_of_dvd _ dvd_rfl]
    _ = (((c + 1) % numUrls) % numUrls +
          (r + numUrls - (c + 1) % numUrls) % numUrls) % numUrls := by
        rw [Nat.mod_mod_of_dvd _ dvd_rfl]
    _ = ((c + 1) % numUrls + (r + numUrls - (c + 1) % numUrls)) % numUrls :=
        (Nat.add_mod _ _ _).symm
    _ = (r + numUrls) % numUrls := by rw [hkey]
    _ = r % numUrls := Nat.add_mod_right r numUrls
    _ = r := Nat.mod_eq_of_lt hr

lemma cycle_nodup (numUrls c : Nat) :
    ((List.range numUrls).map (fun i => (c + 1 + i) % numUrls)).Nodup := by
  refine List.Nodup.map_on ?_ (List.nodup_range numUrls)
  intro x hx y hy hxy
  have hx2 : x < numUrls := List.mem_range.mp hx
  have hy2 : y < numUrls := List.mem_range.mp hy
  have hmod : x % numUrls = y % numUrls :=
    Nat.ModEq.add_left_cancel' (c + 1) hxy
  rw [Nat.mod_eq_of_lt hx2, Nat.mod_eq_of_lt hy2] at hmod
  exact hmod

lemma count_cycle_one (numUrls c r : Nat) (hn : 1 ≤ numUrls) (hr : r < numUrls) :
    ((List.range numUrls).map (fun i => (c + 1 + i) % numUrls)).count r = 1 :=
  List.count_eq_one_of_mem (cycle_nodup numUrls c)
    (cycle_mem numUrls c r hn hr)

lemma count_cycles (numUrls r : Nat) (hn : 1 ≤ numUrls) (hr : r < numUrls) :
    ∀ (k c : Nat),
      ((List.range (k * numUrls)).map (fun i => (c + 1 + i) % numUrls)).count r =
        k := by
  intro k
  induction k with
  | zero =>
    intro c
    simp
  | succ k2 ih =>
    intro c
    have hsplit : (k2 + 1) * numUrls = numUrls + k2 * numUrls := by ring
    rw [hsplit, List.range_add, List.map_append, List.count_append,
      count_cycle_one numUrls c r hn hr, List.map_map]
    have htail : (List.range (k2 * numUrls)).map
          ((fun i => (c + 1 + i) % numUrls) ∘ (fun x => numUrls + x)) =
        (List.range (k2 * numUrls)).map (fun i => (c + numUrls + 1 + i) % numUrls) := by
      refine List.map_congr_left ?_
      intro i _
      show (c + 1 + (numUrls + i)) % numUrls = (c + numUrls + 1 + i) % numUrls
      congr 1
      omega
    rw [htail, ih (c + numUrls)]
    omega

/-- C8 counterexample: the request counter is a uint64 and wraps; from
counter value 2^64 - 2 with 3 endpoints and k = 1, the three consecutive
calls select indices [0, 0, 1], so endpoint 2 is never returned and
endpoint 0 is returned twice — the claim fails without a no-overflow
proviso. -/
theorem c8_counterexample :
    (idxSeq 3 (2 ^ 64 - 2) (1 * 3)).count 2 ≠ 1 ∧
    (idxSeq 3 (2 ^ 64 - 2) (1 * 3)).count 0 = 2 := by
  decide

/-- C8 amended: as long as the k·N calls do not overflow the 64-bit
counter (c + k·N < 2^64), each endpoint index r < N is selected exactly k
times in k·N consecutive sequential NextURL calls, each call selecting
counter mod N after one increment. -/
theorem c8_round_robin_nowrap (numUrls c k r : Nat) (hn : 1 ≤ numUrls)
    (hr : r < numUrls) (hw : c + k * numUrls < u64Mod) :
    (idxSeq numUrls c (k * numUrls)).count r = k ∧
    (idxSeq numUrls c (k * numUrls)).length = k * numUrls ∧
    ∀ n, idxSeq numUrls c (n + 1) =
      (nextURLStep numUrls c).1 :: idxSeq numUrls (nextURLStep numUrls c).2 n := by
  refine ⟨?_, idxSeq_length numUrls _ c, fun n => idxSeq_step numUrls c n⟩
  rw [idxSeq_nowrap numUrls (k * numUrls) c hw]
  exact count_cycles numUrls r hn hr k c

/-- C8 witness: two endpoints, six calls from a fresh client, each endpoint
selected three times. -/
theorem c8_witness :
    (idxSeq 2 0 (3 * 2)).count 1 = 3 ∧ (idxSeq 2 0 (3 * 2)).length = 3 * 2 :=
  ⟨(c8_round_robin_nowrap 2 0 3 1 (by decide) (by decide) (by norm_num [u64Mod])).1,
    (c8_round_robin_nowrap 2 0 3 1 (by decide) (by decide) (by norm_num [u64Mod])).2.1⟩

end Jrpc2
